import Mathlib

/-!
Verification of the client-side PDF pagination and export pipeline of the
learning_room repository.

The embedding models:

* the block paginator of `src/unnamed/part_001` and
  `src/components/content_views/GenericContentView.tsx`
  (`splitContentIntoPages`, the variant that keeps every top-level block
  whole), here namespace `QA`;
* the block paginator of `src/components/content_views/NoteEditor.tsx`
  (`splitContentIntoPages`, the variant with word / list-item / table-row
  splitting), here namespace `Notes`;
* the export / distribution logic of `handleExportConfirm` in the three
  files, here namespace `ExportFlow`;
* the suggested-file-name construction of the admin download branch.

DOM measurement (`tempDiv.offsetHeight`) is modelled by measured heights
attached to the input data: a block carries its measured height, each list
item / table row carries its own, and an oversized paragraph carries a
probe function from word lists to heights.  Page HTML is modelled twice:
as plain strings, mirroring the source's string concatenation, and as
lists of placed units (instrumented form) from which heights and content
can be read off; a refinement theorem ties the two together.
-/

/-- Page height budget (`maxHeightPerPage` in all three source files). -/
def maxHeightPerPage : Nat := 900

/-- Heading orphan threshold (`headingThreshold` in all three source files). -/
def headingThreshold : Nat := 150

/-- The 8px spacer inserted between consecutive blocks. -/
def spacerHTML : String := "<div style=\"height: 8px;\"></div>"

/-- Height accounted for the spacer (`const spacing = 8`). -/
def spacing : Nat := 8

/-! ### Basic string facts used throughout -/

theorem strData_append (a b : String) : (a ++ b).data = a.data ++ b.data := by
  cases a; cases b; rfl

theorem str_eq_empty_iff (s : String) : s = "" ↔ s.data = [] := by
  cases s with
  | mk d =>
    constructor
    · intro h; rw [h]
    · intro h; simp only at h; rw [show ("" : String) = ⟨[]⟩ from rfl, h]

theorem strApp_assoc (a b c : String) : a ++ b ++ c = a ++ (b ++ c) := by
  cases a; cases b; cases c
  show String.mk _ = String.mk _
  simp [String.append]

theorem strEmpty_append (s : String) : "" ++ s = s := by
  cases s
  show String.mk _ = String.mk _
  simp [String.append]

theorem strAppend_empty (s : String) : s ++ "" = s := by
  cases s
  show String.mk _ = String.mk _
  simp [String.append]

theorem strApp_ne_empty_left (a b : String) (h : a ≠ "") : a ++ b ≠ "" := by
  intro hc
  rw [str_eq_empty_iff, strData_append] at hc
  exact h ((str_eq_empty_iff a).mpr (List.append_eq_nil.mp hc).1)

theorem strApp_eq_self_iff (a b : String) : a ++ b = a ↔ b = "" := by
  constructor
  · intro h
    have hd := congrArg String.data h
    rw [strData_append] at hd
    rw [str_eq_empty_iff]
    exact List.append_right_eq_self.mp hd
  · intro h; rw [h, strAppend_empty]

/-! ### Placed units (instrumented page representation)

A page, in the instrumented model, is the list of units the paginator
appended to `currentPageHTML`: a whole block's markup, a word-split
paragraph part, a closed list/table fragment, or the 8px spacer. -/

inductive NUnit where
  | whole (html : String) (height : Nat)
  | part (tag : String) (ws : List String) (height : Nat)
  | frag (tag : String) (items : List (String × Nat))
  | spacer
deriving DecidableEq

/-- `<tag>` as built by the source (`'<' + listType + '>'`). -/
def fragOpen (tag : String) : String := "<" ++ tag ++ ">"

/-- `</tag>` as built by the source. -/
def fragClose (tag : String) : String := "</" ++ tag ++ ">"

/-- Concatenation of the item markup inside a list/table fragment
(`currentListHTML` minus its opening tag). -/
def itemsHTML : List (String × Nat) → String
  | [] => ""
  | it :: its => it.1 ++ itemsHTML its

/-- Markup of one word-split paragraph part: an element of the paragraph's
tag whose text content is the accumulated words
(`partClone.outerHTML` in the source). -/
def partHTML (tag : String) (ws : List String) : String :=
  fragOpen tag ++ String.intercalate " " ws ++ fragClose tag

/-- Markup contributed by one placed unit. -/
def NUnit.render : NUnit → String
  | .whole h _ => h
  | .part tag ws _ => partHTML tag ws
  | .frag tag its => fragOpen tag ++ itemsHTML its ++ fragClose tag
  | .spacer => spacerHTML

/-- Measured height accounted for one placed unit. -/
def NUnit.heightU : NUnit → Nat
  | .whole _ h => h
  | .part _ _ h => h
  | .frag _ its => (its.map Prod.snd).sum
  | .spacer => spacing

/-- HTML of a page given as a list of placed units. -/
def renderUnits : List NUnit → String
  | [] => ""
  | u :: us => u.render ++ renderUnits us

/-- Cumulative measured height of a page given as a list of placed units. -/
def heightN (p : List NUnit) : Nat := (p.map NUnit.heightU).sum

theorem itemsHTML_append (l₁ l₂ : List (String × Nat)) :
    itemsHTML (l₁ ++ l₂) = itemsHTML l₁ ++ itemsHTML l₂ := by
  induction l₁ with
  | nil => simp [itemsHTML, strEmpty_append]
  | cons it its ih => simp [itemsHTML, ih, strApp_assoc]

theorem renderUnits_append (l₁ l₂ : List NUnit) :
    renderUnits (l₁ ++ l₂) = renderUnits l₁ ++ renderUnits l₂ := by
  induction l₁ with
  | nil => simp [renderUnits, strEmpty_append]
  | cons u us ih => simp [renderUnits, ih, strApp_assoc]

theorem heightN_append (l₁ l₂ : List NUnit) :
    heightN (l₁ ++ l₂) = heightN l₁ + heightN l₂ := by
  simp [heightN]

/-! ### String-state paginator machinery

`SState` is the paginator's mutable state as it appears in the source:
the flushed pages, `currentPageHTML` and `currentHeight`. -/

structure SState where
  pages : List String
  cur : String
  curH : Nat
deriving DecidableEq

/-- `pages.push(currentPageHTML); currentPageHTML = ''; currentHeight = 0`. -/
def flushS (st : SState) : SState := ⟨st.pages ++ [st.cur], "", 0⟩

/-- The generic overflow check: flush when the candidate height would
exceed the budget and the current page is non-empty. -/
def checkS (st : SState) (h : Nat) : SState :=
  if st.curH + h > maxHeightPerPage ∧ st.cur ≠ "" then flushS st else st

/-- `currentPageHTML += html; currentHeight += h`. -/
def putS (st : SState) (html : String) (h : Nat) : SState :=
  ⟨st.pages, st.cur ++ html, st.curH + h⟩

/-- Overflow check followed by appending. -/
def placeS (st : SState) (html : String) (h : Nat) : SState :=
  putS (checkS st h) html h

/-- The heading orphan check: if the block is a heading, remaining space is
below the threshold, and the current page is non-empty, flush it. -/
def headS (st : SState) (isH : Bool) : SState :=
  if isH ∧ (maxHeightPerPage : Int) - st.curH < headingThreshold ∧ st.cur ≠ ""
  then flushS st else st

/-- Place the inter-block 8px spacer (with its own overflow check). -/
def spacerS (st : SState) : SState := placeS st spacerHTML spacing

/-- The final flush after the loop: push the current page if non-empty. -/
def pagesOfS (st : SState) : List String :=
  if st.cur ≠ "" then st.pages ++ [st.cur] else st.pages

/-- `if (pages.length === 0) pages.push(placeholder)`. -/
def withPlaceholder (ph : String) (pages : List String) : List String :=
  if pages = [] then [ph] else pages

/-! ### Instrumented-state paginator machinery -/

structure PState where
  pages : List (List NUnit)
  cur : List NUnit
  curH : Nat
deriving DecidableEq

def flushI (st : PState) : PState := ⟨st.pages ++ [st.cur], [], 0⟩

def checkI (st : PState) (h : Nat) : PState :=
  if st.curH + h > maxHeightPerPage ∧ renderUnits st.cur ≠ "" then flushI st else st

def putI (st : PState) (u : NUnit) : PState :=
  ⟨st.pages, st.cur ++ [u], st.curH + u.heightU⟩

def placeI (st : PState) (u : NUnit) : PState :=
  putI (checkI st u.heightU) u

def headI (st : PState) (isH : Bool) : PState :=
  if isH ∧ (maxHeightPerPage : Int) - st.curH < headingThreshold ∧ renderUnits st.cur ≠ ""
  then flushI st else st

def spacerI (st : PState) : PState := placeI st .spacer

/-- Final flush, instrumented form. -/
def pagesOfI (st : PState) : List (List NUnit) :=
  if renderUnits st.cur ≠ "" then st.pages ++ [st.cur] else st.pages

/-- Abstraction from the instrumented state to the string state. -/
def absS (st : PState) : SState :=
  ⟨st.pages.map renderUnits, renderUnits st.cur, st.curH⟩

theorem absS_flush (st : PState) : absS (flushI st) = flushS (absS st) := by
  simp [absS, flushI, flushS, renderUnits]

theorem absS_check (st : PState) (h : Nat) :
    absS (checkI st h) = checkS (absS st) h := by
  unfold checkI checkS
  by_cases hc : st.curH + h > maxHeightPerPage ∧ renderUnits st.cur ≠ ""
  · rw [if_pos hc, if_pos (by exact hc), absS_flush]
  · rw [if_neg hc, if_neg (by exact hc)]

theorem absS_put (st : PState) (u : NUnit) :
    absS (putI st u) = putS (absS st) u.render u.heightU := by
  simp [absS, putI, putS, renderUnits_append, renderUnits, strAppend_empty]

theorem absS_place (st : PState) (u : NUnit) :
    absS (placeI st u) = placeS (absS st) u.render u.heightU := by
  simp [placeI, placeS, absS_put, absS_check]

theorem absS_head (st : PState) (isH : Bool) :
    absS (headI st isH) = headS (absS st) isH := by
  unfold headI headS
  by_cases hc : isH ∧ (maxHeightPerPage : Int) - st.curH < headingThreshold ∧
      renderUnits st.cur ≠ ""
  · rw [if_pos hc, if_pos (by exact hc), absS_flush]
  · rw [if_neg hc, if_neg (by exact hc)]

theorem absS_spacer (st : PState) : absS (spacerI st) = spacerS (absS st) := by
  simp [spacerI, spacerS, absS_place, NUnit.render, NUnit.heightU]

theorem pagesOfS_abs (st : PState) :
    pagesOfS (absS st) = (pagesOfI st).map renderUnits := by
  unfold pagesOfS pagesOfI absS
  by_cases hc : renderUnits st.cur ≠ ""
  · rw [if_pos hc, if_pos hc, List.map_append]; rfl
  · rw [if_neg hc, if_neg hc]

theorem withPlaceholder_map (ph : String) (pages : List (List NUnit)) :
    withPlaceholder ph (pages.map renderUnits) =
      (if pages = [] then [ph] else pages.map renderUnits) := by
  unfold withPlaceholder
  by_cases hp : pages = []
  · rw [if_pos (by simp [hp]), if_pos hp]
  · rw [if_neg (by simpa using hp), if_neg hp]

/-! ### The QA / generic-view paginator

`splitContentIntoPages` of `src/unnamed/part_001` (and, up to the
placeholder text, of `GenericContentView.tsx`): every top-level child is
one block, placed whole.  A `QBlock` is one such block together with its
measured height. -/

structure QBlock where
  isHeading : Bool
  html : String
  height : Nat

namespace QA

/-- One iteration of the source's `for` loop over `blockElements`:
heading orphan check, overflow check, append, and (unless the block is
the last one) the 8px spacer with its own overflow check. -/
def stepS (st : SState) (b : QBlock) (isLast : Bool) : SState :=
  let st1 := headS st b.isHeading
  let st2 := placeS st1 b.html b.height
  if isLast then st2 else spacerS st2

def loopS : SState → List QBlock → SState
  | st, [] => st
  | st, [b] => stepS st b true
  | st, b :: c :: rest => loopS (stepS st b false) (c :: rest)

/-- The empty-output placeholder page of `part_001`. -/
def placeholder : String :=
  "<div style=\"text-align: center; padding: 100px; color: #666; font-style: italic;\">No Q&A available for this chapter.</div>"

/-- `splitContentIntoPages` of `part_001` / `GenericContentView.tsx`,
string form. -/
def splitContentIntoPages (bs : List QBlock) : List String :=
  withPlaceholder placeholder (pagesOfS (loopS ⟨[], "", 0⟩ bs))

/-- Instrumented form of one loop iteration. -/
def stepI (st : PState) (b : QBlock) (isLast : Bool) : PState :=
  let st1 := headI st b.isHeading
  let st2 := placeI st1 (.whole b.html b.height)
  if isLast then st2 else spacerI st2

def loopI : PState → List QBlock → PState
  | st, [] => st
  | st, [b] => stepI st b true
  | st, b :: c :: rest => loopI (stepI st b false) (c :: rest)

/-- The produced pages, as lists of placed units (before the
empty-output placeholder special case). -/
def pagesI (bs : List QBlock) : List (List NUnit) :=
  pagesOfI (loopI ⟨[], [], 0⟩ bs)

theorem absS_stepQ (st : PState) (b : QBlock) (isLast : Bool) :
    absS (stepI st b isLast) = stepS (absS st) b isLast := by
  unfold stepI stepS
  cases isLast <;>
    simp [absS_head, absS_place, absS_spacer, NUnit.render, NUnit.heightU]

theorem absS_loopQ (bs : List QBlock) : ∀ st : PState,
    absS (loopI st bs) = loopS (absS st) bs := by
  induction bs with
  | nil => intro st; rfl
  | cons b rest ih =>
    intro st
    cases rest with
    | nil => simp [loopI, loopS, absS_stepQ]
    | cons c rs =>
      show absS (loopI (stepI st b false) (c :: rs)) = _
      rw [ih (stepI st b false), absS_stepQ]
      rfl

/-- Refinement: the string paginator is the render of the instrumented
one (with the placeholder special case on top). -/
theorem split_eq_renderQ (bs : List QBlock) :
    splitContentIntoPages bs =
      (if pagesI bs = [] then [placeholder] else (pagesI bs).map renderUnits) := by
  unfold splitContentIntoPages pagesI
  have h := absS_loopQ bs ⟨[], [], 0⟩
  have hinit : absS ⟨[], [], 0⟩ = (⟨[], "", 0⟩ : SState) := rfl
  rw [hinit] at h
  rw [← h, pagesOfS_abs, withPlaceholder_map]

end QA

/-! ### The NoteEditor paginator

`splitContentIntoPages` of `NoteEditor.tsx`.  An `NBlock` is one flattened
block element together with everything the source reads off the DOM for
it: its uppercase `tagName`, its `outerHTML`, its measured height, its
text content split at whitespace (used only by the word-splitting branch),
a probe function giving the measured height of a part holding a given word
list, and its list items / table rows with their markup and measured
heights (used only by the list / table branches). -/

structure NBlock where
  tag : String
  html : String
  height : Nat
  words : List String
  measure : List String → Nat
  items : List (String × Nat)

namespace Notes

/-- `tagName.toLowerCase()` (character-wise ASCII lowercasing). -/
def lowerTag (s : String) : String := ⟨s.data.map Char.toLower⟩

/-- `isHeading` of the source, on the element's `tagName`. -/
def isHeading (t : String) : Bool :=
  t == "H1" || t == "H2" || t == "H3" || t == "H4" || t == "H5" || t == "H6"

/-- The word-accumulation loop of the oversized-paragraph branch: add the
word to the current part; if the grown part measures over the budget,
emit the previous part and restart from this word. -/
def wordStep (measure : List String → Nat)
    (acc : List (List String) × List String) (w : String) :
    List (List String) × List String :=
  let test := acc.2 ++ [w]
  if measure test > maxHeightPerPage then (acc.1 ++ [acc.2], [w]) else (acc.1, test)

/-- `splitParts` produced from a paragraph's words
(`if (currentPart) splitParts.push(currentPart.trim())` at the end). -/
def splitWords (measure : List String → Nat) (ws : List String) :
    List (List String) :=
  let r := ws.foldl (wordStep measure) ([], [])
  if r.2 ≠ [] then r.1 ++ [r.2] else r.1

/-- Place the word-split parts one after the other, each with the generic
overflow check, string form. -/
def partsRunS (tagL : String) (measure : List String → Nat) (st : SState)
    (parts : List (List String)) : SState :=
  parts.foldl (fun st ws => placeS st (partHTML tagL ws) (measure ws)) st

def partsRunI (tagL : String) (measure : List String → Nat) (st : PState)
    (parts : List (List String)) : PState :=
  parts.foldl (fun st ws => placeI st (.part tagL ws (measure ws))) st

/-- List / table splitting state, string form: the paginator state plus
`currentListHTML` (which starts as the open tag) and `listHeight`. -/
structure FragS where
  st : SState
  listHTML : String
  listH : Nat

/-- One iteration of the `for (let li of listItems)` /
`for (let row of rows)` loop, string form. -/
def fragStepS (tagL : String) (fs : FragS) (it : String × Nat) : FragS :=
  let fs1 :=
    if fs.st.curH + fs.listH + it.2 > maxHeightPerPage ∧ fs.st.cur ≠ "" then
      { st := ⟨fs.st.pages ++
          [if fs.listHTML ≠ fragOpen tagL
           then fs.st.cur ++ fs.listHTML ++ fragClose tagL
           else fs.st.cur], "", 0⟩,
        listHTML := fragOpen tagL, listH := 0 }
    else fs
  { fs1 with listHTML := fs1.listHTML ++ it.1, listH := fs1.listH + it.2 }

/-- The whole list / table branch, string form: run the item loop, then
close and append the remaining fragment if it is non-empty. -/
def fragRunS (tagL : String) (st : SState) (items : List (String × Nat)) :
    SState :=
  let fs := items.foldl (fragStepS tagL) ⟨st, fragOpen tagL, 0⟩
  if fs.listHTML ≠ fragOpen tagL then
    ⟨fs.st.pages, fs.st.cur ++ fs.listHTML ++ fragClose tagL, fs.st.curH + fs.listH⟩
  else fs.st

/-- List / table splitting state, instrumented form: the accumulated
fragment is kept as its item list. -/
structure FragI where
  st : PState
  items : List (String × Nat)
  listH : Nat

def fragStepI (tagL : String) (fs : FragI) (it : String × Nat) : FragI :=
  let fs1 :=
    if fs.st.curH + fs.listH + it.2 > maxHeightPerPage ∧ renderUnits fs.st.cur ≠ "" then
      { st := ⟨fs.st.pages ++
          [if fs.items ≠ [] then fs.st.cur ++ [NUnit.frag tagL fs.items] else fs.st.cur],
          [], 0⟩,
        items := [], listH := 0 }
    else fs
  { fs1 with items := fs1.items ++ [it], listH := fs1.listH + it.2 }

def fragRunI (tagL : String) (st : PState) (items : List (String × Nat)) :
    PState :=
  let fs := items.foldl (fragStepI tagL) ⟨st, [], 0⟩
  if fs.items ≠ [] then
    ⟨fs.st.pages, fs.st.cur ++ [NUnit.frag tagL fs.items], fs.st.curH + fs.listH⟩
  else fs.st

/-- One iteration of the block loop of `NoteEditor.tsx`: heading orphan
check, then the branch dispatch (word split for oversized `P`/`DIV`,
item split for `UL`/`OL`, row split for `TABLE`, otherwise generic
overflow check and whole placement), then the spacer unless last. -/
def stepS (st : SState) (b : NBlock) (isLast : Bool) : SState :=
  let st1 := headS st (isHeading b.tag)
  let st2 :=
    if b.height > maxHeightPerPage ∧ (b.tag = "P" ∨ b.tag = "DIV") then
      partsRunS (Notes.lowerTag b.tag) b.measure st1 (splitWords b.measure b.words)
    else if b.tag = "UL" ∨ b.tag = "OL" then
      fragRunS (Notes.lowerTag b.tag) st1 b.items
    else if b.tag = "TABLE" then
      fragRunS "table" st1 b.items
    else
      placeS st1 b.html b.height
  if isLast then st2 else spacerS st2

def loopS : SState → List NBlock → SState
  | st, [] => st
  | st, [b] => stepS st b true
  | st, b :: c :: rest => loopS (stepS st b false) (c :: rest)

/-- The empty-output placeholder page of `NoteEditor.tsx`. -/
def placeholder : String :=
  "<div style=\"text-align: center; padding: 100px; color: #666; font-style: italic;\">No notes available for this chapter.</div>"

/-- `splitContentIntoPages` of `NoteEditor.tsx`, string form. -/
def splitContentIntoPages (bs : List NBlock) : List String :=
  withPlaceholder placeholder (pagesOfS (loopS ⟨[], "", 0⟩ bs))

def stepI (st : PState) (b : NBlock) (isLast : Bool) : PState :=
  let st1 := headI st (isHeading b.tag)
  let st2 :=
    if b.height > maxHeightPerPage ∧ (b.tag = "P" ∨ b.tag = "DIV") then
      partsRunI (Notes.lowerTag b.tag) b.measure st1 (splitWords b.measure b.words)
    else if b.tag = "UL" ∨ b.tag = "OL" then
      fragRunI (Notes.lowerTag b.tag) st1 b.items
    else if b.tag = "TABLE" then
      fragRunI "table" st1 b.items
    else
      placeI st1 (.whole b.html b.height)
  if isLast then st2 else spacerI st2

def loopI : PState → List NBlock → PState
  | st, [] => st
  | st, [b] => stepI st b true
  | st, b :: c :: rest => loopI (stepI st b false) (c :: rest)

/-- The produced pages as lists of placed units. -/
def pagesI (bs : List NBlock) : List (List NUnit) :=
  pagesOfI (loopI ⟨[], [], 0⟩ bs)

end Notes

/-- Well-formedness of a block's DOM data: element markup is never the
empty string (an element's `outerHTML` always contains its tags), and
likewise for each list item / table row. -/
def BlockWf (b : NBlock) : Prop := b.html ≠ "" ∧ ∀ it ∈ b.items, it.1 ≠ ""

/-- Well-formedness of a paginator input. -/
def InputWf (bs : List NBlock) : Prop := ∀ b ∈ bs, BlockWf b

/-- Same for the QA paginator: block markup is non-empty. -/
def QInputWf (bs : List QBlock) : Prop := ∀ b ∈ bs, b.html ≠ ""

instance (b : NBlock) : Decidable (BlockWf b) := by
  unfold BlockWf; infer_instance

instance (bs : List NBlock) : Decidable (InputWf bs) := by
  unfold InputWf; infer_instance

instance (bs : List QBlock) : Decidable (QInputWf bs) := by
  unfold QInputWf; infer_instance

theorem itemsHTML_eq_empty_iff (its : List (String × Nat))
    (h : ∀ it ∈ its, it.1 ≠ "") : itemsHTML its = "" ↔ its = [] := by
  cases its with
  | nil => simp [itemsHTML]
  | cons it rest =>
    simp only [itemsHTML]
    constructor
    · intro hc
      exact absurd hc (strApp_ne_empty_left _ _ (h it (by simp)))
    · intro hc; cases hc

theorem fragOpen_append_eq_iff (t x : String) :
    fragOpen t ++ x = fragOpen t ↔ x = "" := strApp_eq_self_iff _ _

namespace Notes

/-- Abstraction of the instrumented list/table splitting state. -/
def fragAbs (tagL : String) (fi : FragI) : FragS :=
  ⟨absS fi.st, fragOpen tagL ++ itemsHTML fi.items, fi.listH⟩

theorem absS_fragStep (tagL : String) (fi : FragI) (it : String × Nat)
    (hits : ∀ x ∈ fi.items, x.1 ≠ "") :
    fragStepS tagL (fragAbs tagL fi) it = fragAbs tagL (fragStepI tagL fi it) := by
  unfold fragStepS fragStepI
  have hguard : (fragAbs tagL fi).st.curH + (fragAbs tagL fi).listH + it.2 > maxHeightPerPage ∧
      (fragAbs tagL fi).st.cur ≠ "" ↔
      fi.st.curH + fi.listH + it.2 > maxHeightPerPage ∧ renderUnits fi.st.cur ≠ "" := by
    rfl
  by_cases hc : fi.st.curH + fi.listH + it.2 > maxHeightPerPage ∧ renderUnits fi.st.cur ≠ ""
  · rw [if_pos (hguard.mpr hc), if_pos hc]
    have hfr : ((fragAbs tagL fi).listHTML ≠ fragOpen tagL) ↔ fi.items ≠ [] :=
      not_congr ((fragOpen_append_eq_iff tagL _).trans
        (itemsHTML_eq_empty_iff fi.items hits))
    by_cases hne : fi.items ≠ []
    · simp only [if_pos (hfr.mpr hne), if_pos hne]
      simp [fragAbs, absS, renderUnits_append, renderUnits, NUnit.render,
        itemsHTML, strAppend_empty, strApp_assoc]
    · simp only [if_neg (fun hcc => hne (hfr.mp hcc)), if_neg hne]
      simp only [not_not] at hne
      simp [fragAbs, absS, hne, renderUnits, itemsHTML, strAppend_empty,
        strEmpty_append]
  · rw [if_neg (fun hcc => hc (hguard.mp hcc)), if_neg hc]
    simp [fragAbs, itemsHTML_append, itemsHTML, strAppend_empty, strApp_assoc]

theorem absS_fragFold (tagL : String) : ∀ (items : List (String × Nat)) (fi : FragI),
    (∀ it ∈ items, it.1 ≠ "") → (∀ x ∈ fi.items, x.1 ≠ "") →
    items.foldl (fragStepS tagL) (fragAbs tagL fi) =
      fragAbs tagL (items.foldl (fragStepI tagL) fi) ∧
    ∀ x ∈ (items.foldl (fragStepI tagL) fi).items, x.1 ≠ "" := by
  intro items
  induction items with
  | nil => intro fi _ hfi; exact ⟨rfl, hfi⟩
  | cons it rest ih =>
    intro fi hits hfi
    have hstep := absS_fragStep tagL fi it hfi
    have hfi' : ∀ x ∈ (fragStepI tagL fi it).items, x.1 ≠ "" := by
      unfold fragStepI
      by_cases hc : fi.st.curH + fi.listH + it.2 > maxHeightPerPage ∧
          renderUnits fi.st.cur ≠ ""
      · rw [if_pos hc]
        intro x hx
        simp only [List.mem_append, List.mem_singleton, List.not_mem_nil] at hx
        rcases hx with hx | hx
        · cases hx
        · cases hx; exact hits it (by simp)
      · rw [if_neg hc]
        intro x hx
        simp only [List.mem_append, List.mem_singleton] at hx
        rcases hx with hx | hx
        · exact hfi x hx
        · cases hx; exact hits it (by simp)
    have := ih (fragStepI tagL fi it) (fun x hx => hits x (by simp [hx])) hfi'
    simpa [List.foldl_cons, hstep] using this

theorem absS_fragRun (tagL : String) (st : PState) (items : List (String × Nat))
    (h : ∀ it ∈ items, it.1 ≠ "") :
    fragRunS tagL (absS st) items = absS (fragRunI tagL st items) := by
  unfold fragRunS fragRunI
  have h0 : (⟨absS st, fragOpen tagL, 0⟩ : FragS) = fragAbs tagL ⟨st, [], 0⟩ := by
    simp [fragAbs, itemsHTML, strAppend_empty]
  rw [h0]
  obtain ⟨heq, hwf⟩ := absS_fragFold tagL items ⟨st, [], 0⟩ h (by intro x hx; cases hx)
  rw [heq]
  have hfr : ((fragAbs tagL (items.foldl (fragStepI tagL) ⟨st, [], 0⟩)).listHTML ≠
      fragOpen tagL) ↔ (items.foldl (fragStepI tagL) ⟨st, [], 0⟩).items ≠ [] :=
    not_congr ((fragOpen_append_eq_iff tagL _).trans
      (itemsHTML_eq_empty_iff _ hwf))
  by_cases hne : (items.foldl (fragStepI tagL) ⟨st, [], 0⟩).items ≠ []
  · rw [if_pos (hfr.mpr hne), if_pos hne]
    simp [fragAbs, absS, renderUnits_append, renderUnits, NUnit.render,
      strAppend_empty, strApp_assoc]
  · rw [if_neg (fun hcc => hne (hfr.mp hcc)), if_neg hne]
    rfl

theorem absS_partsRun (tagL : String) (m : List String → Nat)
    (parts : List (List String)) : ∀ st : PState,
    partsRunS tagL m (absS st) parts = absS (partsRunI tagL m st parts) := by
  induction parts with
  | nil => intro st; rfl
  | cons ws rest ih =>
    intro st
    unfold partsRunS partsRunI
    simp only [List.foldl_cons]
    have : placeS (absS st) (partHTML tagL ws) (m ws) =
        absS (placeI st (.part tagL ws (m ws))) := by
      rw [absS_place]; rfl
    rw [this]
    exact ih (placeI st (.part tagL ws (m ws)))

theorem absS_stepN (st : PState) (b : NBlock) (isLast : Bool) (hb : BlockWf b) :
    absS (stepI st b isLast) = stepS (absS st) b isLast := by
  unfold stepI stepS
  have hmid : absS (if b.height > maxHeightPerPage ∧ (b.tag = "P" ∨ b.tag = "DIV") then
      partsRunI (Notes.lowerTag b.tag) b.measure (headI st (isHeading b.tag))
        (splitWords b.measure b.words)
    else if b.tag = "UL" ∨ b.tag = "OL" then
      fragRunI (Notes.lowerTag b.tag) (headI st (isHeading b.tag)) b.items
    else if b.tag = "TABLE" then
      fragRunI "table" (headI st (isHeading b.tag)) b.items
    else
      placeI (headI st (isHeading b.tag)) (.whole b.html b.height)) =
    (if b.height > maxHeightPerPage ∧ (b.tag = "P" ∨ b.tag = "DIV") then
      partsRunS (Notes.lowerTag b.tag) b.measure (headS (absS st) (isHeading b.tag))
        (splitWords b.measure b.words)
    else if b.tag = "UL" ∨ b.tag = "OL" then
      fragRunS (Notes.lowerTag b.tag) (headS (absS st) (isHeading b.tag)) b.items
    else if b.tag = "TABLE" then
      fragRunS "table" (headS (absS st) (isHeading b.tag)) b.items
    else
      placeS (headS (absS st) (isHeading b.tag)) b.html b.height) := by
    rw [← absS_head]
    split_ifs
    · rw [absS_partsRun]
    · rw [absS_fragRun _ _ _ hb.2]
    · rw [absS_fragRun _ _ _ hb.2]
    · rw [absS_place]; rfl
  cases isLast with
  | true => simpa using hmid
  | false =>
    simp only [Bool.false_eq_true, if_false]
    rw [absS_spacer, hmid]

theorem absS_loopN (bs : List NBlock) : ∀ st : PState, InputWf bs →
    absS (loopI st bs) = loopS (absS st) bs := by
  induction bs with
  | nil => intro st _; rfl
  | cons b rest ih =>
    intro st hwf
    have hb : BlockWf b := hwf b (by simp)
    cases rest with
    | nil => simp [loopI, loopS, absS_stepN _ _ _ hb]
    | cons c rs =>
      show absS (loopI (stepI st b false) (c :: rs)) = _
      rw [ih (stepI st b false) (fun x hx => hwf x (by simp [hx])),
        absS_stepN _ _ _ hb]
      rfl

/-- Refinement: the NoteEditor string paginator is the render of the
instrumented one (with the placeholder special case on top). -/
theorem split_eq_renderN (bs : List NBlock) (hwf : InputWf bs) :
    splitContentIntoPages bs =
      (if pagesI bs = [] then [placeholder] else (pagesI bs).map renderUnits) := by
  unfold splitContentIntoPages pagesI
  have h := absS_loopN bs ⟨[], [], 0⟩ hwf
  have hinit : absS ⟨[], [], 0⟩ = (⟨[], "", 0⟩ : SState) := rfl
  rw [hinit] at h
  rw [← h, pagesOfS_abs, withPlaceholder_map]

end Notes

/-! ### Height invariants

`PageProp` is the budget invariant a produced page can be shown to
satisfy: its cumulative measured height is within the budget, or it
consists of exactly one placed unit whose own height exceeds the budget
(a unit is placed unconditionally when the current page is empty). -/

def NUnit.ok : NUnit → Prop
  | .whole h _ => h ≠ ""
  | .part _ _ _ => True
  | .frag _ its => its ≠ []
  | .spacer => True

theorem render_ne_empty_of_ok (u : NUnit) (h : u.ok) : u.render ≠ "" := by
  cases u with
  | whole html ht => exact h
  | part tag ws ht =>
    show partHTML _ _ ≠ ""
    unfold partHTML fragOpen
    apply strApp_ne_empty_left
    apply strApp_ne_empty_left
    apply strApp_ne_empty_left
    apply strApp_ne_empty_left
    decide
  | frag tag its =>
    show fragOpen tag ++ itemsHTML its ++ fragClose tag ≠ ""
    unfold fragOpen
    apply strApp_ne_empty_left
    apply strApp_ne_empty_left
    apply strApp_ne_empty_left
    apply strApp_ne_empty_left
    decide
  | spacer =>
    show spacerHTML ≠ ""
    decide

theorem renderUnits_eq_empty_iff (l : List NUnit) (h : ∀ u ∈ l, u.ok) :
    renderUnits l = "" ↔ l = [] := by
  cases l with
  | nil => simp [renderUnits]
  | cons u us =>
    simp only [renderUnits]
    constructor
    · intro hc
      exact absurd hc (strApp_ne_empty_left _ _
        (render_ne_empty_of_ok u (h u (by simp))))
    · intro hc; cases hc

def PageProp (p : List NUnit) : Prop :=
  heightN p ≤ maxHeightPerPage ∨ ∃ u, p = [u] ∧ u.heightU > maxHeightPerPage

/-- The state invariant of both paginators: all placed units are
well-formed, the tracked height matches the placed units, and every
flushed page as well as the current page satisfies `PageProp`. -/
structure PInv (st : PState) : Prop where
  okC : ∀ u ∈ st.cur, u.ok
  okP : ∀ p ∈ st.pages, ∀ u ∈ p, u.ok
  hEq : st.curH = heightN st.cur
  pp : ∀ p ∈ st.pages, PageProp p
  pc : PageProp st.cur

theorem PInv_init : PInv ⟨[], [], 0⟩ := by
  refine ⟨?_, ?_, rfl, ?_, ?_⟩
  · intro u hu; cases hu
  · intro p hp; cases hp
  · intro p hp; cases hp
  · left; simp [heightN, maxHeightPerPage]

theorem PInv_flush (st : PState) (h : PInv st) : PInv (flushI st) := by
  refine ⟨?_, ?_, rfl, ?_, ?_⟩
  · intro u hu; cases hu
  · intro p hp
    rcases List.mem_append.mp hp with hp | hp
    · exact h.okP p hp
    · rcases List.mem_singleton.mp hp with rfl
      exact h.okC
  · intro p hp
    rcases List.mem_append.mp hp with hp | hp
    · exact h.pp p hp
    · rcases List.mem_singleton.mp hp with rfl
      exact h.pc
  · left; simp [flushI, heightN, maxHeightPerPage]

theorem PInv_check (st : PState) (k : Nat) (h : PInv st) : PInv (checkI st k) := by
  unfold checkI
  split_ifs with hc
  · exact PInv_flush st h
  · exact h

theorem PInv_head (st : PState) (isH : Bool) (h : PInv st) : PInv (headI st isH) := by
  unfold headI
  split_ifs with hc
  · exact PInv_flush st h
  · exact h

/-- After the overflow check, either the current page is empty or the
candidate fits. -/
theorem check_fits (st : PState) (k : Nat) :
    renderUnits (checkI st k).cur = "" ∨ (checkI st k).curH + k ≤ maxHeightPerPage := by
  unfold checkI
  split_ifs with hc
  · left; rfl
  · rcases not_and_or.mp hc with hc | hc
    · right; omega
    · left; exact not_not.mp hc

theorem PInv_place (st : PState) (u : NUnit) (h : PInv st) (hu : u.ok) :
    PInv (placeI st u) := by
  have h1 : PInv (checkI st u.heightU) := PInv_check st u.heightU h
  have hfit := check_fits st u.heightU
  unfold placeI putI
  refine ⟨?_, h1.okP, ?_, h1.pp, ?_⟩
  · intro v hv
    rcases List.mem_append.mp hv with hv | hv
    · exact h1.okC v hv
    · rcases List.mem_singleton.mp hv with rfl; exact hu
  · rw [heightN_append, h1.hEq]; simp [heightN]
  · rcases hfit with hfit | hfit
    · have : (checkI st u.heightU).cur = [] :=
        (renderUnits_eq_empty_iff _ h1.okC).mp hfit
      rw [this]
      by_cases hk : u.heightU ≤ maxHeightPerPage
      · left; simpa [heightN] using hk
      · right; exact ⟨u, by simp, by omega⟩
    · left
      rw [heightN_append, ← h1.hEq]
      simpa [heightN] using hfit

theorem PInv_spacer (st : PState) (h : PInv st) : PInv (spacerI st) :=
  PInv_place st .spacer h trivial

/-- Invariant of the list/table item loop: the paginator invariant holds,
the tracked fragment height matches its items, the accumulated items are
well-formed, and (once an item has been accepted) either the current page
is empty or page plus fragment still fit the budget. -/
structure FragPInv (fi : Notes.FragI) : Prop where
  inv : PInv fi.st
  hL : fi.listH = (fi.items.map Prod.snd).sum
  okIts : ∀ x ∈ fi.items, x.1 ≠ ""
  bound : fi.items = [] ∨ renderUnits fi.st.cur = "" ∨
    fi.st.curH + fi.listH ≤ maxHeightPerPage

theorem FragPInv_step (tagL : String) (fi : Notes.FragI) (it : String × Nat)
    (h : FragPInv fi) (hit : it.1 ≠ "") : FragPInv (Notes.fragStepI tagL fi it) := by
  unfold Notes.fragStepI
  by_cases hc : fi.st.curH + fi.listH + it.2 > maxHeightPerPage ∧
      renderUnits fi.st.cur ≠ ""
  · rw [if_pos hc]
    have hpg : PageProp (if fi.items ≠ [] then fi.st.cur ++ [NUnit.frag tagL fi.items]
        else fi.st.cur) := by
      by_cases hne : fi.items ≠ []
      · rw [if_pos hne]
        rcases h.bound with hb | hb | hb
        · exact absurd hb hne
        · exact absurd hb hc.2
        · left
          rw [heightN_append, ← h.inv.hEq]
          have : heightN [NUnit.frag tagL fi.items] = fi.listH := by
            simp [heightN, NUnit.heightU, h.hL]
          omega
      · rw [if_neg hne]; exact h.inv.pc
    have hokpg : ∀ u ∈ (if fi.items ≠ [] then fi.st.cur ++ [NUnit.frag tagL fi.items]
        else fi.st.cur), u.ok := by
      by_cases hne : fi.items ≠ []
      · rw [if_pos hne]
        intro u hu
        rcases List.mem_append.mp hu with hu | hu
        · exact h.inv.okC u hu
        · rcases List.mem_singleton.mp hu with rfl; exact hne
      · rw [if_neg hne]; exact h.inv.okC
    refine ⟨⟨?_, ?_, rfl, ?_, ?_⟩, ?_, ?_, ?_⟩
    · intro u hu; cases hu
    · intro p hp
      rcases List.mem_append.mp hp with hp | hp
      · exact h.inv.okP p hp
      · rcases List.mem_singleton.mp hp with rfl; exact hokpg
    · intro p hp
      rcases List.mem_append.mp hp with hp | hp
      · exact h.inv.pp p hp
      · rcases List.mem_singleton.mp hp with rfl; exact hpg
    · left; simp [heightN, maxHeightPerPage]
    · simp
    · intro x hx
      rcases List.mem_singleton.mp (by simpa using hx) with rfl
      exact hit
    · right; left; rfl
  · rw [if_neg hc]
    refine ⟨h.inv, ?_, ?_, ?_⟩
    · simp [h.hL]
    · intro x hx
      rcases List.mem_append.mp hx with hx | hx
      · exact h.okIts x hx
      · rcases List.mem_singleton.mp hx with rfl; exact hit
    · rcases not_and_or.mp hc with hc | hc
      · right; right; simp only [Notes.FragI.mk.injEq]; omega
      · right; left; exact not_not.mp hc

theorem FragPInv_fold (tagL : String) (items : List (String × Nat)) :
    ∀ fi : Notes.FragI, FragPInv fi → (∀ it ∈ items, it.1 ≠ "") →
    FragPInv (items.foldl (Notes.fragStepI tagL) fi) := by
  induction items with
  | nil => intro fi h _; exact h
  | cons it rest ih =>
    intro fi h hits
    simp only [List.foldl_cons]
    exact ih (Notes.fragStepI tagL fi it)
      (FragPInv_step tagL fi it h (hits it (by simp)))
      (fun x hx => hits x (by simp [hx]))

theorem PInv_fragRun (tagL : String) (st : PState) (items : List (String × Nat))
    (h : PInv st) (hits : ∀ it ∈ items, it.1 ≠ "") :
    PInv (Notes.fragRunI tagL st items) := by
  unfold Notes.fragRunI
  have hf := FragPInv_fold tagL items ⟨st, [], 0⟩
    ⟨h, rfl, (by intro x hx; cases hx), Or.inl rfl⟩ hits
  set fi := items.foldl (Notes.fragStepI tagL) ⟨st, [], 0⟩ with hfi
  by_cases hne : fi.items ≠ []
  · rw [if_pos hne]
    refine ⟨?_, hf.inv.okP, ?_, hf.inv.pp, ?_⟩
    · intro u hu
      rcases List.mem_append.mp hu with hu | hu
      · exact hf.inv.okC u hu
      · rcases List.mem_singleton.mp hu with rfl; exact hne
    · rw [heightN_append, ← hf.inv.hEq]
      simp [heightN, NUnit.heightU, hf.hL]
    · rcases hf.bound with hb | hb | hb
      · exact absurd hb hne
      · have : fi.st.cur = [] := (renderUnits_eq_empty_iff _ hf.inv.okC).mp hb
        rw [this]
        by_cases hk : (fi.items.map Prod.snd).sum ≤ maxHeightPerPage
        · left; simpa [heightN, NUnit.heightU] using hk
        · right
          refine ⟨NUnit.frag tagL fi.items, by simp, ?_⟩
          simpa [NUnit.heightU] using hk
      · left
        rw [heightN_append, ← hf.inv.hEq]
        have : heightN [NUnit.frag tagL fi.items] = fi.listH := by
          simp [heightN, NUnit.heightU, hf.hL]
        omega
  · rw [if_neg hne]
    exact hf.inv

theorem PInv_partsRun (tagL : String) (m : List String → Nat)
    (parts : List (List String)) : ∀ st : PState, PInv st →
    PInv (Notes.partsRunI tagL m st parts) := by
  induction parts with
  | nil => intro st h; exact h
  | cons ws rest ih =>
    intro st h
    unfold Notes.partsRunI
    simp only [List.foldl_cons]
    exact ih (placeI st (.part tagL ws (m ws)))
      (PInv_place st (.part tagL ws (m ws)) h trivial)

theorem PInv_stepN (st : PState) (b : NBlock) (isLast : Bool)
    (h : PInv st) (hb : BlockWf b) : PInv (Notes.stepI st b isLast) := by
  unfold Notes.stepI
  have h1 : PInv (headI st (Notes.isHeading b.tag)) := PInv_head st _ h
  have h2 : PInv (if b.height > maxHeightPerPage ∧ (b.tag = "P" ∨ b.tag = "DIV") then
      Notes.partsRunI (Notes.lowerTag b.tag) b.measure (headI st (Notes.isHeading b.tag))
        (Notes.splitWords b.measure b.words)
    else if b.tag = "UL" ∨ b.tag = "OL" then
      Notes.fragRunI (Notes.lowerTag b.tag) (headI st (Notes.isHeading b.tag)) b.items
    else if b.tag = "TABLE" then
      Notes.fragRunI "table" (headI st (Notes.isHeading b.tag)) b.items
    else
      placeI (headI st (Notes.isHeading b.tag)) (.whole b.html b.height)) := by
    split_ifs
    · exact PInv_partsRun _ _ _ _ h1
    · exact PInv_fragRun _ _ _ h1 hb.2
    · exact PInv_fragRun _ _ _ h1 hb.2
    · exact PInv_place _ _ h1 hb.1
  cases isLast with
  | true => simpa using h2
  | false =>
    simp only [Bool.false_eq_true, if_false]
    exact PInv_spacer _ h2

theorem PInv_loopN (bs : List NBlock) : ∀ st : PState, PInv st → InputWf bs →
    PInv (Notes.loopI st bs) := by
  induction bs with
  | nil => intro st h _; exact h
  | cons b rest ih =>
    intro st h hwf
    have hb : BlockWf b := hwf b (by simp)
    cases rest with
    | nil => exact PInv_stepN st b true h hb
    | cons c rs =>
      show PInv (Notes.loopI (Notes.stepI st b false) (c :: rs))
      exact ih (Notes.stepI st b false) (PInv_stepN st b false h hb)
        (fun x hx => hwf x (by simp [hx]))

theorem PInv_stepQ (st : PState) (b : QBlock) (isLast : Bool)
    (h : PInv st) (hb : b.html ≠ "") : PInv (QA.stepI st b isLast) := by
  unfold QA.stepI
  have h1 : PInv (headI st b.isHeading) := PInv_head st _ h
  have h2 : PInv (placeI (headI st b.isHeading) (.whole b.html b.height)) :=
    PInv_place _ _ h1 hb
  cases isLast with
  | true => simpa using h2
  | false =>
    simp only [Bool.false_eq_true, if_false]
    exact PInv_spacer _ h2

theorem PInv_loopQ (bs : List QBlock) : ∀ st : PState, PInv st → QInputWf bs →
    PInv (QA.loopI st bs) := by
  induction bs with
  | nil => intro st h _; exact h
  | cons b rest ih =>
    intro st h hwf
    have hb : b.html ≠ "" := hwf b (by simp)
    cases rest with
    | nil => exact PInv_stepQ st b true h hb
    | cons c rs =>
      show PInv (QA.loopI (QA.stepI st b false) (c :: rs))
      exact ih (QA.stepI st b false) (PInv_stepQ st b false h hb)
        (fun x hx => hwf x (by simp [hx]))

/-- Every produced page satisfies the invariant components. -/
theorem pagesOfI_prop (st : PState) (h : PInv st) :
    ∀ p ∈ pagesOfI st, PageProp p := by
  unfold pagesOfI
  split_ifs with hc
  · intro p hp
    rcases List.mem_append.mp hp with hp | hp
    · exact h.pp p hp
    · rcases List.mem_singleton.mp hp with rfl; exact h.pc
  · exact h.pp

/-! ### Shape of QA pages

The QA paginator only ever places whole blocks and spacers. -/

def wholeOrSpacer (u : NUnit) : Prop := (∃ h k, u = .whole h k) ∨ u = .spacer

structure QShape (st : PState) : Prop where
  sc : ∀ u ∈ st.cur, wholeOrSpacer u
  sp : ∀ p ∈ st.pages, ∀ u ∈ p, wholeOrSpacer u

theorem QShape_flush (st : PState) (h : QShape st) : QShape (flushI st) := by
  refine ⟨?_, ?_⟩
  · intro u hu; cases hu
  · intro p hp
    rcases List.mem_append.mp hp with hp | hp
    · exact h.sp p hp
    · rcases List.mem_singleton.mp hp with rfl; exact h.sc

theorem QShape_place (st : PState) (u : NUnit) (h : QShape st)
    (hu : wholeOrSpacer u) : QShape (placeI st u) := by
  have h1 : QShape (checkI st u.heightU) := by
    unfold checkI
    split_ifs
    · exact QShape_flush st h
    · exact h
  unfold placeI putI
  refine ⟨?_, h1.sp⟩
  intro v hv
  rcases List.mem_append.mp hv with hv | hv
  · exact h1.sc v hv
  · rcases List.mem_singleton.mp hv with rfl; exact hu

theorem QShape_stepQ (st : PState) (b : QBlock) (isLast : Bool)
    (h : QShape st) : QShape (QA.stepI st b isLast) := by
  unfold QA.stepI
  have h1 : QShape (headI st b.isHeading) := by
    unfold headI
    split_ifs
    · exact QShape_flush st h
    · exact h
  have h2 : QShape (placeI (headI st b.isHeading) (.whole b.html b.height)) :=
    QShape_place _ _ h1 (Or.inl ⟨b.html, b.height, rfl⟩)
  cases isLast with
  | true => simpa using h2
  | false =>
    simp only [Bool.false_eq_true, if_false]
    exact QShape_place _ _ h2 (Or.inr rfl)

theorem QShape_loopQ (bs : List QBlock) : ∀ st : PState, QShape st →
    QShape (QA.loopI st bs) := by
  induction bs with
  | nil => intro st h; exact h
  | cons b rest ih =>
    intro st h
    cases rest with
    | nil => exact QShape_stepQ st b true h
    | cons c rs =>
      show QShape (QA.loopI (QA.stepI st b false) (c :: rs))
      exact ih (QA.stepI st b false) (QShape_stepQ st b false h)

/-- Every page the QA paginator produces is within budget, or is exactly
one whole block whose own height exceeds the budget. -/
theorem QA_pageProp (bs : List QBlock) (hwf : QInputWf bs) :
    ∀ p ∈ QA.pagesI bs, heightN p ≤ maxHeightPerPage ∨
      ∃ h k, p = [NUnit.whole h k] ∧ k > maxHeightPerPage := by
  intro p hp
  have hinv : PInv (QA.loopI ⟨[], [], 0⟩ bs) := PInv_loopQ bs _ PInv_init hwf
  have hshape : QShape (QA.loopI ⟨[], [], 0⟩ bs) :=
    QShape_loopQ bs _ ⟨(by intro u hu; cases hu), (by intro q hq; cases hq)⟩
  have hprop : PageProp p := pagesOfI_prop _ hinv p hp
  have hsh : ∀ u ∈ p, wholeOrSpacer u := by
    revert hp
    show p ∈ pagesOfI _ → _
    unfold pagesOfI
    split_ifs with hc
    · intro hp
      rcases List.mem_append.mp hp with hp | hp
      · exact hshape.sp p hp
      · rcases List.mem_singleton.mp hp with rfl; exact hshape.sc
    · intro hp; exact hshape.sp p hp
  rcases hprop with hprop | ⟨u, rfl, hu⟩
  · exact Or.inl hprop
  · rcases hsh u (by simp) with ⟨h, k, rfl⟩ | rfl
    · exact Or.inr ⟨h, k, rfl, by simpa [NUnit.heightU] using hu⟩
    · exact absurd hu (by simp [NUnit.heightU, spacing, maxHeightPerPage])

/-- Every page the NoteEditor paginator produces is within budget, or
consists of exactly one placed unit whose accumulated height exceeds the
budget. -/
theorem Notes_pageProp (bs : List NBlock) (hwf : InputWf bs) :
    ∀ p ∈ Notes.pagesI bs, heightN p ≤ maxHeightPerPage ∨
      ∃ u, p = [u] ∧ u.heightU > maxHeightPerPage := by
  intro p hp
  exact pagesOfI_prop _ (PInv_loopN bs _ PInv_init hwf) p hp

/-! ### Content preservation

The content tokens of a placed unit: the markup of a whole block, the
words of a paragraph part, the item/row markup of a fragment; spacers
carry no content. -/

def NUnit.content : NUnit → List String
  | .whole h _ => [h]
  | .part _ ws _ => ws
  | .frag _ its => its.map Prod.fst
  | .spacer => []

def contentOfUnits (l : List NUnit) : List String := l.flatMap NUnit.content

/-- All content tokens held by a paginator state, in order. -/
def stContent (st : PState) : List String :=
  (st.pages.flatMap contentOfUnits) ++ contentOfUnits st.cur

/-- The content tokens of an input block, at the granularity at which the
NoteEditor paginator splits it: words for an oversized paragraph, items
for a list, rows for a table, and the whole markup otherwise. -/
def NBlock.content (b : NBlock) : List String :=
  if b.height > maxHeightPerPage ∧ (b.tag = "P" ∨ b.tag = "DIV") then b.words
  else if b.tag = "UL" ∨ b.tag = "OL" then b.items.map Prod.fst
  else if b.tag = "TABLE" then b.items.map Prod.fst
  else [b.html]

theorem contentOfUnits_append (l₁ l₂ : List NUnit) :
    contentOfUnits (l₁ ++ l₂) = contentOfUnits l₁ ++ contentOfUnits l₂ := by
  simp [contentOfUnits]

theorem stContent_flush (st : PState) : stContent (flushI st) = stContent st := by
  simp [stContent, flushI, contentOfUnits]

theorem stContent_check (st : PState) (k : Nat) :
    stContent (checkI st k) = stContent st := by
  unfold checkI
  split_ifs
  · exact stContent_flush st
  · rfl

theorem stContent_head (st : PState) (isH : Bool) :
    stContent (headI st isH) = stContent st := by
  unfold headI
  split_ifs
  · exact stContent_flush st
  · rfl

theorem stContent_place (st : PState) (u : NUnit) :
    stContent (placeI st u) = stContent st ++ u.content := by
  unfold placeI putI
  show (_ : List String) = _
  rw [← stContent_check st u.heightU]
  simp [stContent, contentOfUnits_append, contentOfUnits]

theorem stContent_spacer (st : PState) :
    stContent (spacerI st) = stContent st := by
  rw [spacerI, stContent_place]
  simp [NUnit.content]

theorem stContent_partsRun (tagL : String) (m : List String → Nat)
    (parts : List (List String)) : ∀ st : PState,
    stContent (Notes.partsRunI tagL m st parts) = stContent st ++ parts.flatten := by
  induction parts with
  | nil => intro st; simp [Notes.partsRunI]
  | cons ws rest ih =>
    intro st
    unfold Notes.partsRunI
    simp only [List.foldl_cons]
    rw [show List.foldl _ (placeI st (.part tagL ws (m ws))) rest =
      Notes.partsRunI tagL m (placeI st (.part tagL ws (m ws))) rest from rfl]
    rw [ih, stContent_place]
    simp [NUnit.content, List.flatten]

/-- Content carried by the list/table loop state: state content followed
by the pending fragment's items. -/
def fragContent (fi : Notes.FragI) : List String :=
  stContent fi.st ++ fi.items.map Prod.fst

theorem fragContent_step (tagL : String) (fi : Notes.FragI) (it : String × Nat) :
    fragContent (Notes.fragStepI tagL fi it) = fragContent fi ++ [it.1] := by
  unfold Notes.fragStepI fragContent
  by_cases hc : fi.st.curH + fi.listH + it.2 > maxHeightPerPage ∧
      renderUnits fi.st.cur ≠ ""
  · rw [if_pos hc]
    by_cases hne : fi.items ≠ []
    · rw [if_pos hne]
      simp [stContent, contentOfUnits_append, contentOfUnits, NUnit.content]
    · rw [if_neg hne]
      simp only [not_not] at hne
      simp [hne, stContent, contentOfUnits_append, contentOfUnits, NUnit.content]
  · rw [if_neg hc]
    simp

theorem fragContent_fold (tagL : String) (items : List (String × Nat)) :
    ∀ fi : Notes.FragI,
    fragContent (items.foldl (Notes.fragStepI tagL) fi) =
      fragContent fi ++ items.map Prod.fst := by
  induction items with
  | nil => intro fi; simp
  | cons it rest ih =>
    intro fi
    simp only [List.foldl_cons, List.map_cons]
    rw [ih, fragContent_step]
    simp

theorem stContent_fragRun (tagL : String) (st : PState)
    (items : List (String × Nat)) :
    stContent (Notes.fragRunI tagL st items) = stContent st ++ items.map Prod.fst := by
  unfold Notes.fragRunI
  have hf := fragContent_fold tagL items ⟨st, [], 0⟩
  have h0 : fragContent ⟨st, [], 0⟩ = stContent st := by simp [fragContent]
  rw [h0] at hf
  set fi := items.foldl (Notes.fragStepI tagL) ⟨st, [], 0⟩ with hfi
  by_cases hne : fi.items ≠ []
  · rw [if_pos hne]
    have : stContent ⟨fi.st.pages, fi.st.cur ++ [NUnit.frag tagL fi.items],
        fi.st.curH + fi.listH⟩ = stContent fi.st ++ fi.items.map Prod.fst := by
      simp [stContent, contentOfUnits_append, contentOfUnits, NUnit.content]
    rw [this]
    show stContent fi.st ++ fi.items.map Prod.fst = _
    rw [show stContent fi.st ++ fi.items.map Prod.fst = fragContent fi from rfl, hf]
  · rw [if_neg hne]
    simp only [not_not] at hne
    have : fragContent fi = stContent fi.st := by simp [fragContent, hne]
    rw [← this, hf]

/-- The word-splitting loop of the oversized-paragraph branch never drops,
duplicates or reorders a word. -/
theorem splitWords_join (m : List String → Nat) (ws : List String) :
    (Notes.splitWords m ws).flatten = ws := by
  have key : ∀ (l : List String) (acc : List (List String) × List String),
      (l.foldl (Notes.wordStep m) acc).1.flatten ++ (l.foldl (Notes.wordStep m) acc).2 =
        acc.1.flatten ++ acc.2 ++ l := by
    intro l
    induction l with
    | nil => intro acc; simp
    | cons w rest ih =>
      intro acc
      simp only [List.foldl_cons]
      rw [ih]
      simp only [Notes.wordStep]
      split_ifs
      · simp
      · simp
  simp only [Notes.splitWords]
  have h := key ws ([], [])
  simp only [List.flatten, List.foldl_nil] at h
  split_ifs with hc
  · simp only [List.flatten_append]
    simpa using h
  · simp only [not_not] at hc
    rw [hc] at h
    simpa using h

theorem stContent_stepN (st : PState) (b : NBlock) (isLast : Bool) :
    stContent (Notes.stepI st b isLast) = stContent st ++ b.content := by
  unfold Notes.stepI NBlock.content
  have hmid : stContent (if b.height > maxHeightPerPage ∧ (b.tag = "P" ∨ b.tag = "DIV") then
      Notes.partsRunI (Notes.lowerTag b.tag) b.measure (headI st (Notes.isHeading b.tag))
        (Notes.splitWords b.measure b.words)
    else if b.tag = "UL" ∨ b.tag = "OL" then
      Notes.fragRunI (Notes.lowerTag b.tag) (headI st (Notes.isHeading b.tag)) b.items
    else if b.tag = "TABLE" then
      Notes.fragRunI "table" (headI st (Notes.isHeading b.tag)) b.items
    else
      placeI (headI st (Notes.isHeading b.tag)) (.whole b.html b.height)) =
    stContent st ++ (if b.height > maxHeightPerPage ∧ (b.tag = "P" ∨ b.tag = "DIV") then b.words
    else if b.tag = "UL" ∨ b.tag = "OL" then b.items.map Prod.fst
    else if b.tag = "TABLE" then b.items.map Prod.fst
    else [b.html]) := by
    split_ifs
    · rw [stContent_partsRun, stContent_head, splitWords_join]
    · rw [stContent_fragRun, stContent_head]
    · rw [stContent_fragRun, stContent_head]
    · rw [stContent_place, stContent_head]; rfl
  cases isLast with
  | true => simpa using hmid
  | false =>
    simp only [Bool.false_eq_true, if_false]
    rw [stContent_spacer, hmid]

theorem stContent_loopN (bs : List NBlock) : ∀ st : PState,
    stContent (Notes.loopI st bs) = stContent st ++ bs.flatMap NBlock.content := by
  induction bs with
  | nil => intro st; simp [Notes.loopI]
  | cons b rest ih =>
    intro st
    cases rest with
    | nil =>
      show stContent (Notes.stepI st b true) = _
      rw [stContent_stepN]
      simp
    | cons c rs =>
      show stContent (Notes.loopI (Notes.stepI st b false) (c :: rs)) = _
      rw [ih, stContent_stepN]
      simp

theorem stContent_stepQ (st : PState) (b : QBlock) (isLast : Bool) :
    stContent (QA.stepI st b isLast) = stContent st ++ [b.html] := by
  unfold QA.stepI
  have hmid : stContent (placeI (headI st b.isHeading) (.whole b.html b.height)) =
      stContent st ++ [b.html] := by
    rw [stContent_place, stContent_head]; rfl
  cases isLast with
  | true => simpa using hmid
  | false =>
    simp only [Bool.false_eq_true, if_false]
    rw [stContent_spacer, hmid]

theorem stContent_loopQ (bs : List QBlock) : ∀ st : PState,
    stContent (QA.loopI st bs) = stContent st ++ bs.map QBlock.html := by
  induction bs with
  | nil => intro st; simp [QA.loopI]
  | cons b rest ih =>
    intro st
    cases rest with
    | nil =>
      show stContent (QA.stepI st b true) = _
      rw [stContent_stepQ]
      simp
    | cons c rs =>
      show stContent (QA.loopI (QA.stepI st b false) (c :: rs)) = _
      rw [ih, stContent_stepQ]
      simp

/-- If the final state satisfies the invariant, the produced pages hold
exactly the state's content tokens. -/
theorem pagesOfI_content (st : PState) (h : PInv st) :
    (pagesOfI st).flatMap contentOfUnits = stContent st := by
  unfold pagesOfI stContent
  split_ifs with hc
  · simp [contentOfUnits]
  · have : st.cur = [] := (renderUnits_eq_empty_iff _ h.okC).mp (not_not.mp hc)
    simp [this, contentOfUnits]

/-! ### No empty page is ever produced

Every `pages.push(currentPageHTML)` in the source is guarded by
`currentPageHTML !== ''` (in the list/table loop the pushed value extends
the guarded non-empty current page), so the output never contains an
empty string. -/

theorem noE_flush (st : SState) (h : "" ∉ st.pages) (hc : st.cur ≠ "") :
    "" ∉ (flushS st).pages := by
  intro hmem
  rcases List.mem_append.mp hmem with hm | hm
  · exact h hm
  · rcases List.mem_singleton.mp hm with hm
    exact hc hm.symm

theorem noE_checkS (st : SState) (k : Nat) (h : "" ∉ st.pages) :
    "" ∉ (checkS st k).pages := by
  unfold checkS
  split_ifs with hc
  · exact noE_flush st h hc.2
  · exact h

theorem noE_headS (st : SState) (isH : Bool) (h : "" ∉ st.pages) :
    "" ∉ (headS st isH).pages := by
  unfold headS
  split_ifs with hc
  · exact noE_flush st h hc.2.2
  · exact h

theorem noE_placeS (st : SState) (html : String) (k : Nat) (h : "" ∉ st.pages) :
    "" ∉ (placeS st html k).pages := noE_checkS st k h

theorem noE_spacerS (st : SState) (h : "" ∉ st.pages) :
    "" ∉ (spacerS st).pages := noE_placeS st spacerHTML spacing h

theorem noE_fragStepS (tagL : String) (fs : Notes.FragS) (it : String × Nat)
    (h : "" ∉ fs.st.pages) : "" ∉ (Notes.fragStepS tagL fs it).st.pages := by
  unfold Notes.fragStepS
  by_cases hc : fs.st.curH + fs.listH + it.2 > maxHeightPerPage ∧ fs.st.cur ≠ ""
  · rw [if_pos hc]
    intro hmem
    rcases List.mem_append.mp hmem with hm | hm
    · exact h hm
    · rcases List.mem_singleton.mp hm with hm
      revert hm
      split_ifs
      · intro hm
        exact strApp_ne_empty_left _ _ (strApp_ne_empty_left _ _ hc.2) hm.symm
      · intro hm
        exact hc.2 hm.symm
  · rw [if_neg hc]
    exact h

theorem noE_fragRunS (tagL : String) (st : SState) (items : List (String × Nat))
    (h : "" ∉ st.pages) : "" ∉ (Notes.fragRunS tagL st items).pages := by
  unfold Notes.fragRunS
  have hfold : ∀ (l : List (String × Nat)) (fs : Notes.FragS), "" ∉ fs.st.pages →
      "" ∉ (l.foldl (Notes.fragStepS tagL) fs).st.pages := by
    intro l
    induction l with
    | nil => intro fs hf; exact hf
    | cons it rest ih =>
      intro fs hf
      simp only [List.foldl_cons]
      exact ih (Notes.fragStepS tagL fs it) (noE_fragStepS tagL fs it hf)
  have hf := hfold items ⟨st, fragOpen tagL, 0⟩ h
  show "" ∉ (if _ then _ else _ : SState).pages
  split_ifs
  · exact hf
  · exact hf

theorem noE_partsRunS (tagL : String) (m : List String → Nat)
    (parts : List (List String)) : ∀ st : SState, "" ∉ st.pages →
    "" ∉ (Notes.partsRunS tagL m st parts).pages := by
  induction parts with
  | nil => intro st h; exact h
  | cons ws rest ih =>
    intro st h
    unfold Notes.partsRunS
    simp only [List.foldl_cons]
    exact ih (placeS st (partHTML tagL ws) (m ws)) (noE_placeS st _ _ h)

theorem noE_stepN (st : SState) (b : NBlock) (isLast : Bool)
    (h : "" ∉ st.pages) : "" ∉ (Notes.stepS st b isLast).pages := by
  unfold Notes.stepS
  have h1 := noE_headS st (Notes.isHeading b.tag) h
  have h2 : "" ∉ (if b.height > maxHeightPerPage ∧ (b.tag = "P" ∨ b.tag = "DIV") then
      Notes.partsRunS (Notes.lowerTag b.tag) b.measure (headS st (Notes.isHeading b.tag))
        (Notes.splitWords b.measure b.words)
    else if b.tag = "UL" ∨ b.tag = "OL" then
      Notes.fragRunS (Notes.lowerTag b.tag) (headS st (Notes.isHeading b.tag)) b.items
    else if b.tag = "TABLE" then
      Notes.fragRunS "table" (headS st (Notes.isHeading b.tag)) b.items
    else
      placeS (headS st (Notes.isHeading b.tag)) b.html b.height).pages := by
    split_ifs
    · exact noE_partsRunS _ _ _ _ h1
    · exact noE_fragRunS _ _ _ h1
    · exact noE_fragRunS _ _ _ h1
    · exact noE_placeS _ _ _ h1
  cases isLast with
  | true => simpa using h2
  | false =>
    simp only [Bool.false_eq_true, if_false]
    exact noE_spacerS _ h2

theorem noE_loopN (bs : List NBlock) : ∀ st : SState, "" ∉ st.pages →
    "" ∉ (Notes.loopS st bs).pages := by
  induction bs with
  | nil => intro st h; exact h
  | cons b rest ih =>
    intro st h
    cases rest with
    | nil => exact noE_stepN st b true h
    | cons c rs =>
      show "" ∉ (Notes.loopS (Notes.stepS st b false) (c :: rs)).pages
      exact ih (Notes.stepS st b false) (noE_stepN st b false h)

theorem noE_stepQ (st : SState) (b : QBlock) (isLast : Bool)
    (h : "" ∉ st.pages) : "" ∉ (QA.stepS st b isLast).pages := by
  unfold QA.stepS
  have h2 := noE_placeS (headS st b.isHeading) b.html b.height
    (noE_headS st b.isHeading h)
  cases isLast with
  | true => simpa using h2
  | false =>
    simp only [Bool.false_eq_true, if_false]
    exact noE_spacerS _ h2

theorem noE_loopQ (bs : List QBlock) : ∀ st : SState, "" ∉ st.pages →
    "" ∉ (QA.loopS st bs).pages := by
  induction bs with
  | nil => intro st h; exact h
  | cons b rest ih =>
    intro st h
    cases rest with
    | nil => exact noE_stepQ st b true h
    | cons c rs =>
      show "" ∉ (QA.loopS (QA.stepS st b false) (c :: rs)).pages
      exact ih (QA.stepS st b false) (noE_stepQ st b false h)

theorem noE_pagesOfS (st : SState) (h : "" ∉ st.pages) :
    "" ∉ pagesOfS st := by
  unfold pagesOfS
  split_ifs with hc
  · intro hmem
    rcases List.mem_append.mp hmem with hm | hm
    · exact h hm
    · rcases List.mem_singleton.mp hm with hm
      exact hc hm.symm
  · exact h

theorem noE_withPlaceholder (ph : String) (pages : List String)
    (hph : ph ≠ "") (h : "" ∉ pages) : "" ∉ withPlaceholder ph pages := by
  unfold withPlaceholder
  split_ifs
  · intro hmem
    rcases List.mem_singleton.mp hmem with hm
    exact hph hm.symm
  · exact h

/-! ### The heading orphan rule -/

theorem withPlaceholder_ne_nil (ph : String) (pages : List String) :
    withPlaceholder ph pages ≠ [] := by
  unfold withPlaceholder
  split_ifs with hc
  · simp
  · exact hc

/-- A heading tag matches none of the splitting branches. -/
theorem isHeading_not_split (t : String) (h : Notes.isHeading t = true) :
    ¬(t = "P" ∨ t = "DIV") ∧ ¬(t = "UL" ∨ t = "OL") ∧ t ≠ "TABLE" := by
  simp only [Notes.isHeading, Bool.or_eq_true, beq_iff_eq] at h
  rcases h with ((((h | h) | h) | h) | h) | h <;> subst h <;>
    exact ⟨by decide, by decide, by decide⟩

/-- Placing a block right after a flush puts it alone on the fresh page. -/
theorem afterFlush_place (st : SState) (html : String) (k : Nat) :
    placeS (flushS st) html k = ⟨st.pages ++ [st.cur], html, k⟩ := by
  unfold placeS checkS putS flushS
  rw [if_neg (by intro hcc; exact hcc.2 rfl)]
  simp [strEmpty_append]

/-- Behaviour of the spacer step on an explicit state. -/
theorem spacer_on (p : List String) (html : String) (k : Nat) :
    spacerS ⟨p, html, k⟩ =
      (if k + spacing > maxHeightPerPage ∧ html ≠ ""
       then ⟨p ++ [html], spacerHTML, spacing⟩
       else ⟨p, html ++ spacerHTML, k + spacing⟩) := by
  unfold spacerS placeS checkS putS flushS
  by_cases hc : k + spacing > maxHeightPerPage ∧ html ≠ ""
  · rw [if_pos hc, if_pos hc]
    simp [strEmpty_append]
  · rw [if_neg hc, if_neg hc]

/-- Heading orphan rule, QA paginator, one step: if the block is a
heading, fewer than `headingThreshold` px remain, and the current page is
non-empty, then the current page is flushed unchanged before the heading
is placed, and the heading starts the next page — regardless of whether
the heading would have fit (the check precedes the overflow check). -/
theorem QA_heading_step (st : SState) (b : QBlock) (isLast : Bool)
    (hH : b.isHeading = true)
    (hSpace : (maxHeightPerPage : Int) - st.curH < headingThreshold)
    (hne : st.cur ≠ "") :
    ((QA.stepS st b isLast).pages = st.pages ++ [st.cur] ∧
      ((QA.stepS st b isLast).cur = b.html ∨
       (QA.stepS st b isLast).cur = b.html ++ spacerHTML)) ∨
    ((QA.stepS st b isLast).pages = st.pages ++ [st.cur] ++ [b.html] ∧
      (QA.stepS st b isLast).cur = spacerHTML) := by
  have hcond : b.isHeading = true ∧
      ((maxHeightPerPage : Int) - st.curH < headingThreshold ∧ st.cur ≠ "") :=
    ⟨hH, hSpace, hne⟩
  have hhead : headS st b.isHeading = flushS st := by
    unfold headS; rw [if_pos hcond]
  have hstep : QA.stepS st b isLast =
      (if isLast then (⟨st.pages ++ [st.cur], b.html, b.height⟩ : SState)
       else spacerS ⟨st.pages ++ [st.cur], b.html, b.height⟩) := by
    simp only [QA.stepS]
    rw [hhead, afterFlush_place]
  cases isLast with
  | true =>
    rw [hstep]
    exact Or.inl ⟨rfl, Or.inl rfl⟩
  | false =>
    rw [hstep]
    simp only [Bool.false_eq_true, if_false]
    rw [spacer_on]
    by_cases hc : b.height + spacing > maxHeightPerPage ∧ b.html ≠ ""
    · rw [if_pos hc]
      exact Or.inr ⟨rfl, rfl⟩
    · rw [if_neg hc]
      exact Or.inl ⟨rfl, Or.inr rfl⟩

/-- Heading orphan rule, NoteEditor paginator, one step (same statement;
a heading block goes through the whole-block placement branch). -/
theorem Notes_heading_step (st : SState) (b : NBlock) (isLast : Bool)
    (hH : Notes.isHeading b.tag = true)
    (hSpace : (maxHeightPerPage : Int) - st.curH < headingThreshold)
    (hne : st.cur ≠ "") :
    ((Notes.stepS st b isLast).pages = st.pages ++ [st.cur] ∧
      ((Notes.stepS st b isLast).cur = b.html ∨
       (Notes.stepS st b isLast).cur = b.html ++ spacerHTML)) ∨
    ((Notes.stepS st b isLast).pages = st.pages ++ [st.cur] ++ [b.html] ∧
      (Notes.stepS st b isLast).cur = spacerHTML) := by
  obtain ⟨h1, h2, h3⟩ := isHeading_not_split b.tag hH
  have hcond : Notes.isHeading b.tag = true ∧
      ((maxHeightPerPage : Int) - st.curH < headingThreshold ∧ st.cur ≠ "") :=
    ⟨hH, hSpace, hne⟩
  have hhead : headS st (Notes.isHeading b.tag) = flushS st := by
    unfold headS; rw [if_pos hcond]
  have hstep : Notes.stepS st b isLast =
      (if isLast then (⟨st.pages ++ [st.cur], b.html, b.height⟩ : SState)
       else spacerS ⟨st.pages ++ [st.cur], b.html, b.height⟩) := by
    have hd1 : ¬(b.height > maxHeightPerPage ∧ (b.tag = "P" ∨ b.tag = "DIV")) :=
      fun hcc => h1 hcc.2
    simp only [Notes.stepS]
    rw [if_neg hd1, if_neg h2, if_neg h3, hhead, afterFlush_place]
  cases isLast with
  | true =>
    rw [hstep]
    exact Or.inl ⟨rfl, Or.inl rfl⟩
  | false =>
    rw [hstep]
    simp only [Bool.false_eq_true, if_false]
    rw [spacer_on]
    by_cases hc : b.height + spacing > maxHeightPerPage ∧ b.html ≠ ""
    · rw [if_pos hc]
      exact Or.inr ⟨rfl, rfl⟩
    · rw [if_neg hc]
      exact Or.inl ⟨rfl, Or.inr rfl⟩

/-! ### Determinism: pagination depends only on the probe's answers

The raw inputs below are the block data without any measured heights; a
probe function `m` (the Height Prober) supplies every height the
paginator reads.  Two probes that agree on the probed markup give
identical page lists. -/

def qBlockOf (m : String → Nat) (r : Bool × String) : QBlock :=
  ⟨r.1, r.2, m r.2⟩

structure NRaw where
  tag : String
  html : String
  words : List String
  items : List String

def nBlockOf (m : String → Nat) (r : NRaw) : NBlock :=
  ⟨r.tag, r.html, m r.html, r.words,
   fun ws => m (partHTML (Notes.lowerTag r.tag) ws),
   r.items.map (fun s => (s, m s))⟩

/-! ### Export and distribution (`handleExportConfirm`)

The asynchronous export routine of the three views, modelled as a
function of the environment it reads: the caller's privilege
(`user.role === 'admin' || user.canEdit`), the number of content items,
whether the hierarchy fetch and the page rasterization succeed, whether
the e-mail endpoint acknowledges success, whether the offscreen staging
container ref is mounted, and (NoteEditor only) whether the per-session
`sessionStorage` download key is already set.  The usage-counter call
`api.incrementLessonDownload` is modelled as always succeeding; the
logo fetch cannot fail (it degrades to an empty string). -/

namespace ExportFlow

inductive Variant | notes | qa | generic
deriving DecidableEq

structure Env where
  isAdmin : Bool
  itemCount : Nat
  hierOk : Bool
  rasterOk : Bool
  emailOk : Bool
  hasContainer : Bool
  stored : Bool
deriving DecidableEq

structure Outcome where
  success : Bool
  increments : Nat
  stored : Bool
deriving DecidableEq

/-- The usage-counter update of the success paths.  `NoteEditor.tsx`
guards the increment with the `downloaded_lessonId_notes` session key;
the QA and generic views increment unconditionally. -/
def incOnce (v : Variant) (stored : Bool) : Nat × Bool :=
  match v with
  | .notes => if stored then (0, true) else (1, true)
  | _ => (1, stored)

/-- The `try` body: hierarchy fetch, the zero-content check, the staging
container check, rasterization, then the distribution branch. -/
def tryBody (v : Variant) (e : Env) : Except String Outcome :=
  if e.hierOk = false then .error "hierarchy fetch failed"
  else if e.itemCount = 0 then .error "no content available for this chapter"
  else if e.hasContainer = false then .error "export container not found"
  else if e.rasterOk = false then .error "page rasterization failed"
  else if e.isAdmin then
    .ok ⟨true, (incOnce v e.stored).1, (incOnce v e.stored).2⟩
  else if e.emailOk then
    .ok ⟨true, (incOnce v e.stored).1, (incOnce v e.stored).2⟩
  else .error "email send failed"

structure Result where
  success : Bool
  increments : Nat
  stored : Bool
  isExporting : Bool
  staging : Option String
deriving DecidableEq

/-- `handleExportConfirm`: the `try`/`catch` body followed by the
`finally` block, which clears the exporting flag and, when the container
ref is mounted, resets its HTML to the empty string. -/
def handleExportConfirm (v : Variant) (e : Env) : Result :=
  let o : Outcome :=
    match tryBody v e with
    | .ok o => o
    | .error _ => ⟨false, 0, e.stored⟩
  ⟨o.success, o.increments, o.stored, false,
    if e.hasContainer then some "" else none⟩

end ExportFlow

/-! ### Suggested file name of the admin download branch

`lessonName.replace(/[^a-zA-Z0-9஀-௿]/g, '_')` followed by an
underscore, the resource label, an underscore, the ISO export date, and
the `.pdf` extension. -/

def isAsciiAlnum (c : Char) : Bool :=
  ('a' ≤ c && c ≤ 'z') || ('A' ≤ c && c ≤ 'Z') || ('0' ≤ c && c ≤ '9')

/-- Membership in the `஀`–`௿` (Tamil) range kept by the regex. -/
def isTamilRange (c : Char) : Bool :=
  0xB80 ≤ c.toNat && c.toNat ≤ 0xBFF

def sanitizeChar (c : Char) : Char :=
  if isAsciiAlnum c || isTamilRange c then c else '_'

/-- The per-character global replace applied to the lesson name. -/
def sanitizeLessonName (s : String) : String := ⟨s.data.map sanitizeChar⟩

/-- `link.download` as assembled by the source. -/
def suggestedFileName (lessonName label date : String) : String :=
  sanitizeLessonName lessonName ++ "_" ++ label ++ "_" ++ date ++ ".pdf"

/-! ### Remaining helper lemmas -/

theorem pagesOfI_ok (st : PState) (h : PInv st) :
    ∀ p ∈ pagesOfI st, ∀ u ∈ p, u.ok := by
  unfold pagesOfI
  split_ifs with hc
  · intro p hp
    rcases List.mem_append.mp hp with hp | hp
    · exact h.okP p hp
    · rcases List.mem_singleton.mp hp with rfl; exact h.okC
  · exact h.okP

/-- Does the page consist of exactly one whole block? -/
def isSingleWhole : List NUnit → Bool
  | [NUnit.whole _ _] => true
  | _ => false

/-! ### Claims -/

/-- Claim C1 — counterexample to the claim as stated.  In the NoteEditor
paginator every flush inside the list/table item loop requires the
current page to be non-empty, so once the loop has flushed, the rest of
the list accumulates on the new (empty) page without any budget check.
A preceding 100px paragraph followed by a `UL` with items of 600, 800
and 700 px produces a second page holding a two-item list fragment of
height 1500 > 900 — not a single atomic block placed whole and alone. -/
theorem C1_counterexample :
    InputWf [⟨"P", "<p>intro</p>", 100, [], fun _ => 0, []⟩,
             ⟨"UL", "<ul><li>a</li></ul>", 2100, [], fun _ => 0,
              [("<li>a</li>", 600), ("<li>b</li>", 800), ("<li>c</li>", 700)]⟩] ∧
    Notes.pagesI [⟨"P", "<p>intro</p>", 100, [], fun _ => 0, []⟩,
             ⟨"UL", "<ul><li>a</li></ul>", 2100, [], fun _ => 0,
              [("<li>a</li>", 600), ("<li>b</li>", 800), ("<li>c</li>", 700)]⟩] =
      [[.whole "<p>intro</p>" 100, .spacer, .frag "ul" [("<li>a</li>", 600)]],
       [.frag "ul" [("<li>b</li>", 800), ("<li>c</li>", 700)]]] ∧
    heightN [NUnit.frag "ul" [("<li>b</li>", 800), ("<li>c</li>", 700)]] = 1500 ∧
    1500 > maxHeightPerPage ∧
    isSingleWhole [NUnit.frag "ul" [("<li>b</li>", 800), ("<li>c</li>", 700)]] = false := by
  decide

/-- Claim C1 (amended): in the QA / generic paginator every page is
within the 900px budget except a page holding exactly one whole block
whose own height exceeds the budget; in the NoteEditor paginator every
page is within budget except a page consisting of exactly one placed
unit (a whole block, a word-split part, or a list/table fragment that
started on an empty page) whose accumulated height exceeds the budget. -/
theorem C1_holds :
    (∀ bs : List QBlock, QInputWf bs → ∀ p ∈ QA.pagesI bs,
      heightN p ≤ maxHeightPerPage ∨
        ∃ h k, p = [NUnit.whole h k] ∧ k > maxHeightPerPage) ∧
    (∀ bs : List NBlock, InputWf bs → ∀ p ∈ Notes.pagesI bs,
      heightN p ≤ maxHeightPerPage ∨
        ∃ u, p = [u] ∧ u.heightU > maxHeightPerPage) :=
  ⟨QA_pageProp, Notes_pageProp⟩

theorem C1_holds_witness :
    heightN [NUnit.whole "<div>q1 a1</div>" 300] ≤ maxHeightPerPage ∨
      ∃ h k, ([NUnit.whole "<div>q1 a1</div>" 300] : List NUnit) =
        [NUnit.whole h k] ∧ k > maxHeightPerPage :=
  C1_holds.1 [⟨false, "<div>q1 a1</div>", 300⟩] (by decide)
    [NUnit.whole "<div>q1 a1</div>" 300] (by decide)

/-- Claim C2: concatenating the produced pages' content (whole blocks,
words of word-split paragraphs, list items, table rows — spacers and
fragment wrapper tags stripped) reproduces the input blocks' content in
order, with nothing omitted, duplicated or reordered, for both
paginators. -/
theorem C2_holds :
    (∀ bs : List QBlock, QInputWf bs →
      (QA.pagesI bs).flatMap contentOfUnits = bs.map QBlock.html) ∧
    (∀ bs : List NBlock, InputWf bs →
      (Notes.pagesI bs).flatMap contentOfUnits = bs.flatMap NBlock.content) := by
  constructor
  · intro bs hwf
    have hinv := PInv_loopQ bs ⟨[], [], 0⟩ PInv_init hwf
    show (pagesOfI (QA.loopI ⟨[], [], 0⟩ bs)).flatMap contentOfUnits = _
    rw [pagesOfI_content _ hinv, stContent_loopQ]
    simp [stContent, contentOfUnits]
  · intro bs hwf
    have hinv := PInv_loopN bs ⟨[], [], 0⟩ PInv_init hwf
    show (pagesOfI (Notes.loopI ⟨[], [], 0⟩ bs)).flatMap contentOfUnits = _
    rw [pagesOfI_content _ hinv, stContent_loopN]
    simp [stContent, contentOfUnits]

theorem C2_holds_witness :
    (QA.pagesI [⟨false, "<div>q2</div>", 200⟩]).flatMap contentOfUnits =
      [QBlock.mk false "<div>q2</div>" 200].map QBlock.html ∧
    (Notes.pagesI [⟨"UL", "<ul><li>x</li></ul>", 50, [], fun _ => 0,
        [("<li>x</li>", 30)]⟩]).flatMap contentOfUnits =
      [NBlock.mk "UL" "<ul><li>x</li></ul>" 50 [] (fun _ => 0)
        [("<li>x</li>", 30)]].flatMap NBlock.content :=
  ⟨C2_holds.1 [⟨false, "<div>q2</div>", 200⟩] (by decide),
   C2_holds.2 [⟨"UL", "<ul><li>x</li></ul>", 50, [], fun _ => 0,
      [("<li>x</li>", 30)]⟩] (by decide)⟩

/-- Claim C3: the NoteEditor paginator's string output is exactly the
rendering of its structured pages, in which every list/table fragment is
non-empty and rendered as an opening tag, its items, and the matching
closing tag — so no page ever carries a dangling open list/table tag. -/
theorem C3_holds : ∀ bs : List NBlock, InputWf bs →
    Notes.splitContentIntoPages bs =
      (if Notes.pagesI bs = [] then [Notes.placeholder]
       else (Notes.pagesI bs).map renderUnits) ∧
    ∀ p ∈ Notes.pagesI bs, ∀ u ∈ p, ∀ t its, u = NUnit.frag t its →
      its ≠ [] ∧ u.render = fragOpen t ++ itemsHTML its ++ fragClose t := by
  intro bs hwf
  constructor
  · exact Notes.split_eq_renderN bs hwf
  · intro p hp u hu t its hfr
    have hok : u.ok := pagesOfI_ok _ (PInv_loopN bs ⟨[], [], 0⟩ PInv_init hwf) p hp u hu
    subst hfr
    exact ⟨hok, rfl⟩

theorem C3_holds_witness :
    Notes.splitContentIntoPages [⟨"OL", "<ol><li>1</li><li>2</li></ol>", 60, [],
        fun _ => 0, [("<li>1</li>", 30), ("<li>2</li>", 30)]⟩] =
      (if Notes.pagesI [⟨"OL", "<ol><li>1</li><li>2</li></ol>", 60, [],
          fun _ => 0, [("<li>1</li>", 30), ("<li>2</li>", 30)]⟩] = []
       then [Notes.placeholder]
       else (Notes.pagesI [⟨"OL", "<ol><li>1</li><li>2</li></ol>", 60, [],
          fun _ => 0, [("<li>1</li>", 30), ("<li>2</li>", 30)]⟩]).map renderUnits) :=
  (C3_holds [⟨"OL", "<ol><li>1</li><li>2</li></ol>", 60, [],
      fun _ => 0, [("<li>1</li>", 30), ("<li>2</li>", 30)]⟩] (by decide)).1

/-- Claim C4: in both paginators, a heading block arriving when fewer
than 150px remain on a non-empty current page causes that page to be
flushed unchanged, and the heading begins the next page.  No bound on
the heading's own height is assumed: the rule fires even when the
heading would still have fit, i.e. it takes priority over the generic
overflow check. -/
theorem C4_holds :
    (∀ (st : SState) (b : QBlock) (isLast : Bool), b.isHeading = true →
      (maxHeightPerPage : Int) - st.curH < headingThreshold → st.cur ≠ "" →
      ((QA.stepS st b isLast).pages = st.pages ++ [st.cur] ∧
        ((QA.stepS st b isLast).cur = b.html ∨
         (QA.stepS st b isLast).cur = b.html ++ spacerHTML)) ∨
      ((QA.stepS st b isLast).pages = st.pages ++ [st.cur] ++ [b.html] ∧
        (QA.stepS st b isLast).cur = spacerHTML)) ∧
    (∀ (st : SState) (b : NBlock) (isLast : Bool), Notes.isHeading b.tag = true →
      (maxHeightPerPage : Int) - st.curH < headingThreshold → st.cur ≠ "" →
      ((Notes.stepS st b isLast).pages = st.pages ++ [st.cur] ∧
        ((Notes.stepS st b isLast).cur = b.html ∨
         (Notes.stepS st b isLast).cur = b.html ++ spacerHTML)) ∨
      ((Notes.stepS st b isLast).pages = st.pages ++ [st.cur] ++ [b.html] ∧
        (Notes.stepS st b isLast).cur = spacerHTML)) :=
  ⟨QA_heading_step, Notes_heading_step⟩

theorem C4_holds_witness :
    ((QA.stepS ⟨[], "<p>body</p>", 800⟩ ⟨true, "<h2>t</h2>", 50⟩ true).pages =
        ([] : List String) ++ ["<p>body</p>"] ∧
      ((QA.stepS ⟨[], "<p>body</p>", 800⟩ ⟨true, "<h2>t</h2>", 50⟩ true).cur =
          "<h2>t</h2>" ∨
       (QA.stepS ⟨[], "<p>body</p>", 800⟩ ⟨true, "<h2>t</h2>", 50⟩ true).cur =
          "<h2>t</h2>" ++ spacerHTML)) ∨
    ((QA.stepS ⟨[], "<p>body</p>", 800⟩ ⟨true, "<h2>t</h2>", 50⟩ true).pages =
        ([] : List String) ++ ["<p>body</p>"] ++ ["<h2>t</h2>"] ∧
      (QA.stepS ⟨[], "<p>body</p>", 800⟩ ⟨true, "<h2>t</h2>", 50⟩ true).cur =
        spacerHTML) :=
  C4_holds.1 ⟨[], "<p>body</p>", 800⟩ ⟨true, "<h2>t</h2>", 50⟩ true rfl
    (by decide) (by decide)

/-- Claim C5: on empty input both paginators return exactly the one
placeholder page, and on any input the returned page list is never
empty. -/
theorem C5_holds :
    QA.splitContentIntoPages [] = [QA.placeholder] ∧
    Notes.splitContentIntoPages [] = [Notes.placeholder] ∧
    (∀ bs : List QBlock, QA.splitContentIntoPages bs ≠ []) ∧
    (∀ bs : List NBlock, Notes.splitContentIntoPages bs ≠ []) := by
  refine ⟨rfl, rfl, ?_, ?_⟩
  · intro bs
    unfold QA.splitContentIntoPages
    exact withPlaceholder_ne_nil _ _
  · intro bs
    unfold Notes.splitContentIntoPages
    exact withPlaceholder_ne_nil _ _

/-- Claim C6 — counterexample to the claim as stated.  The NoteEditor
export deduplicates the usage-counter increment through a sessionStorage
key: the first successful job for a lesson increments once and sets the
key, and a second successful job in the same session increments zero
times — not exactly once per successful job. -/
theorem C6_counterexample :
    (ExportFlow.handleExportConfirm .notes
      ⟨true, 3, true, true, true, true, false⟩).success = true ∧
    (ExportFlow.handleExportConfirm .notes
      ⟨true, 3, true, true, true, true, false⟩).increments = 1 ∧
    (ExportFlow.handleExportConfirm .notes
      ⟨true, 3, true, true, true, true, false⟩).stored = true ∧
    (ExportFlow.handleExportConfirm .notes
      ⟨true, 3, true, true, true, true, true⟩).success = true ∧
    (ExportFlow.handleExportConfirm .notes
      ⟨true, 3, true, true, true, true, true⟩).increments = 0 := by
  decide

/-- Claim C6 (amended): the QA and generic views increment the usage
counter exactly once per successful job; the notes view increments
exactly once on the first successful job of a session (then records the
session key) and zero times on later successful jobs of that session;
no failed job increments. -/
theorem C6_holds : ∀ e : ExportFlow.Env,
    ((ExportFlow.handleExportConfirm .qa e).success = true →
      (ExportFlow.handleExportConfirm .qa e).increments = 1) ∧
    ((ExportFlow.handleExportConfirm .generic e).success = true →
      (ExportFlow.handleExportConfirm .generic e).increments = 1) ∧
    ((ExportFlow.handleExportConfirm .notes e).success = true →
      (ExportFlow.handleExportConfirm .notes e).increments =
        (if e.stored then 0 else 1)) ∧
    (∀ v : ExportFlow.Variant,
      (ExportFlow.handleExportConfirm v e).success = false →
      (ExportFlow.handleExportConfirm v e).increments = 0) := by
  intro e
  refine ⟨?_, ?_, ?_, ?_⟩
  · simp only [ExportFlow.handleExportConfirm, ExportFlow.tryBody, ExportFlow.incOnce]
    split_ifs <;> simp
  · simp only [ExportFlow.handleExportConfirm, ExportFlow.tryBody, ExportFlow.incOnce]
    split_ifs <;> simp
  · simp only [ExportFlow.handleExportConfirm, ExportFlow.tryBody, ExportFlow.incOnce]
    split_ifs <;> simp
  · intro v
    cases v <;>
      simp only [ExportFlow.handleExportConfirm, ExportFlow.tryBody,
        ExportFlow.incOnce] <;>
      split_ifs <;> simp

theorem C6_holds_witness :
    (ExportFlow.handleExportConfirm .qa
      ⟨true, 2, true, true, true, true, false⟩).increments = 1 :=
  (C6_holds ⟨true, 2, true, true, true, true, false⟩).1 (by decide)

/-- Claim C7 — counterexample to the claim as stated.  The suggested
file name keeps non-alphanumeric characters that do not come from the
lesson name: the ISO date hyphens survive verbatim (so the name is not
the result of replacing every non-alphanumeric character by an
underscore), and the sanitizer itself keeps the whole Tamil Unicode
block, which is not ASCII-alphanumeric. -/
theorem C7_counterexample :
    suggestedFileName "Algebra" "QA" "2026-10-11" = "Algebra_QA_2026-10-11.pdf" ∧
    ('-' ∈ (suggestedFileName "Algebra" "QA" "2026-10-11").data) ∧
    isAsciiAlnum '-' = false ∧ ('-' ≠ '_') ∧
    sanitizeLessonName "க" = "க" ∧ isAsciiAlnum 'க' = false ∧
    sanitizeLessonName "a b!" = "a_b_" := by
  decide

/-- Claim C7 (amended): the suggested file name is the lesson name with
every character outside ASCII alphanumerics and the Tamil Unicode block
`஀`–`௿` replaced by an underscore, followed by an underscore, the
resource label, an underscore, the export date and `.pdf`; only the
lesson-name component is sanitized, and every character the sanitizer
outputs is ASCII-alphanumeric, in the Tamil block, or an underscore. -/
theorem C7_holds : ∀ lessonName label date : String,
    suggestedFileName lessonName label date =
      sanitizeLessonName lessonName ++ "_" ++ label ++ "_" ++ date ++ ".pdf" ∧
    ∀ c ∈ (sanitizeLessonName lessonName).data,
      (isAsciiAlnum c || isTamilRange c) = true ∨ c = '_' := by
  intro l label date
  refine ⟨rfl, ?_⟩
  intro c hc
  have hc2 : c ∈ l.data.map sanitizeChar := hc
  rcases List.mem_map.mp hc2 with ⟨c0, _, rfl⟩
  unfold sanitizeChar
  split_ifs with h
  · left; exact h
  · right; rfl

theorem C7_holds_witness :
    (isAsciiAlnum 'L' || isTamilRange 'L') = true ∨ 'L' = '_' :=
  (C7_holds "Lesson 1" "Notes" "2026-10-11").2 'L' (by decide)

/-- Claim C8: pagination is a pure function of the block data and the
Height Prober's answers.  For the QA / generic paginator, two probe
functions that agree on every input block's markup produce identical
page lists; for the NoteEditor paginator, two extensionally equal probe
functions produce identical page lists.  No timing or other external
state enters the computation. -/
theorem C8_holds :
    (∀ (m1 m2 : String → Nat) (rs : List (Bool × String)),
      (∀ r ∈ rs, m1 r.2 = m2 r.2) →
      QA.splitContentIntoPages (rs.map (qBlockOf m1)) =
        QA.splitContentIntoPages (rs.map (qBlockOf m2))) ∧
    (∀ (m1 m2 : String → Nat) (rs : List NRaw),
      (∀ s, m1 s = m2 s) →
      Notes.splitContentIntoPages (rs.map (nBlockOf m1)) =
        Notes.splitContentIntoPages (rs.map (nBlockOf m2))) := by
  constructor
  · intro m1 m2 rs h
    have : rs.map (qBlockOf m1) = rs.map (qBlockOf m2) := by
      apply List.map_congr_left
      intro r hr
      unfold qBlockOf
      rw [h r hr]
    rw [this]
  · intro m1 m2 rs h
    have : m1 = m2 := funext h
    rw [this]

theorem C8_holds_witness :
    QA.splitContentIntoPages ([(false, "<p>a</p>")].map
        (qBlockOf String.length)) =
      QA.splitContentIntoPages ([(false, "<p>a</p>")].map
        (qBlockOf (fun s => if s = "<p>a</p>" then 8 else 0))) :=
  C8_holds.1 String.length (fun s => if s = "<p>a</p>" then 8 else 0)
    [(false, "<p>a</p>")] (by decide)

/-- Claim C9: neither paginator ever returns an empty page string —
every flush is guarded by the current page being non-empty, and the
empty-input placeholder is non-empty. -/
theorem C9_holds :
    (∀ bs : List QBlock, "" ∉ QA.splitContentIntoPages bs) ∧
    (∀ bs : List NBlock, "" ∉ Notes.splitContentIntoPages bs) := by
  constructor
  · intro bs
    unfold QA.splitContentIntoPages
    exact noE_withPlaceholder _ _ (by decide)
      (noE_pagesOfS _ (noE_loopQ bs _ (List.not_mem_nil "")))
  · intro bs
    unfold Notes.splitContentIntoPages
    exact noE_withPlaceholder _ _ (by decide)
      (noE_pagesOfS _ (noE_loopN bs _ (List.not_mem_nil "")))

/-- Claim C10: whatever path `handleExportConfirm` takes — success or
any failure — the `finally` block clears the exporting flag and resets
the staging container's HTML to the empty string (when the container ref
is mounted; without a container there is no staging area at all). -/
theorem C10_holds : ∀ (v : ExportFlow.Variant) (e : ExportFlow.Env),
    (ExportFlow.handleExportConfirm v e).isExporting = false ∧
    (ExportFlow.handleExportConfirm v e).staging =
      (if e.hasContainer then some "" else none) ∧
    ∀ s, (ExportFlow.handleExportConfirm v e).staging = some s → s = "" := by
  intro v e
  refine ⟨rfl, rfl, ?_⟩
  intro s hs
  have : (if e.hasContainer then some "" else none) = some s := hs
  revert this
  split_ifs
  · intro hsome
    cases hsome
    rfl
  · intro hnone
    cases hnone

theorem C10_holds_witness :
    (ExportFlow.handleExportConfirm .qa
      ⟨false, 1, true, true, true, true, false⟩).isExporting = false ∧
    ("" : String) = "" :=
  ⟨(C10_holds .qa ⟨false, 1, true, true, true, true, false⟩).1,
   (C10_holds .qa ⟨false, 1, true, true, true, true, false⟩).2.2 "" (by decide)⟩
